import Mathlib

/-!
Shallow embedding of `src/single-well/statistics.py` and verification of its
specification.  Signals are modelled as lists of rationals (the floating-point
values appearing in the claims are exactly representable or only compared by
sign, so `ℚ` is faithful for every statement below); numpy arrays become
lists, and Python exceptions become explicit error values.
-/

/-- Labels stored in the `crossing_indices` accumulator of `residence_time`:
the sentinel label `"*"` of the initial row, and the `"+"` / `"-"` labels of
accepted crossings. -/
inductive Label
  | star
  | plus
  | minus
  deriving DecidableEq, Repr

/-- Tolerance for when the signal crosses the flag; hard-wired `tol = 1e-3`
in the source. -/
def tol : ℚ := 1 / 1000

/-- Timestep; hard-wired `dt = 1e-3` in the source ("took this value from the
simulator"). -/
def dt : ℚ := 1 / 1000

/-- Python `np.abs` on a rational value. -/
def npAbs (q : ℚ) : ℚ := if 0 ≤ q then q else -q

/-- Python `x[i-1]`: for `i = 0` this evaluates `x[-1]`, which is the LAST
element of the list (Python negative-index wraparound); for `i ≥ 1` it is the
ordinary predecessor. -/
def prevSample (x : List ℚ) (i : ℕ) : ℚ :=
  if i = 0 then x.getD (x.length - 1) 0 else x.getD (i - 1) 0

/-- Python `crossing_indices[-1][-1]`: the label of the most recently appended
row (the accumulator is never empty, it starts with the sentinel row). -/
def lastLabel (cs : List (ℕ × Label)) : Label :=
  (cs.getLastD (0, Label.star)).2

/-- One iteration of the scan loop of `residence_time` at sample index `i`:
skip exact zeros; test the positive crossing (`|x[i]-flags| < tol` and
`x[i]-x[i-1] > 0`) and the negative crossing (`|x[i]+flags| < tol` and
`x[i]-x[i-1] < 0`); append the candidate only when the accumulator still holds
just the sentinel (`len(crossing_indices) > 1` is false) or the last accepted
label is the opposite one. -/
def crossStep (x : List ℚ) (flags : ℚ) (cs : List (ℕ × Label)) (i : ℕ) :
    List (ℕ × Label) :=
  if x.getD i 0 = 0 then cs
  else if npAbs (x.getD i 0 - flags) < tol ∧ 0 < x.getD i 0 - prevSample x i then
    if 1 < cs.length then
      if lastLabel cs = Label.minus then cs ++ [(i, Label.plus)] else cs
    else cs ++ [(i, Label.plus)]
  else if npAbs (x.getD i 0 + flags) < tol ∧ x.getD i 0 - prevSample x i < 0 then
    if 1 < cs.length then
      if lastLabel cs = Label.plus then cs ++ [(i, Label.minus)] else cs
    else cs ++ [(i, Label.minus)]
  else cs

/-- The scan loop `for i in range(steps)` of `residence_time`, folded from the
initial accumulator `[(0, "*")]`. -/
def crossScan (x : List ℚ) (flags : ℚ) : List (ℕ × Label) :=
  (List.range x.length).foldl (crossStep x flags) [(0, Label.star)]

/-- The crossing sequence emitted by `residence_time`:
`crossing_indices[1:]`, the scan result with the sentinel row dropped. -/
def crossing_indices (x : List ℚ) (flags : ℚ) : List (ℕ × Label) :=
  (crossScan x flags).drop 1

/-- Embedding of `residence_time(x, flags)`.  The Python builds
`rtseries = [dt*int(i) for i,_ in crossing_indices]`, subtracts `rtseries[0]`
from every entry, and takes adjacent differences `rtseries[1:]-rtseries[:-1]`.
When the crossing list is empty, `rtseries[0]` raises `IndexError`; that is
modelled by returning `none`. -/
def residence_time (x : List ℚ) (flags : ℚ) :
    Option (List (ℕ × Label) × List ℚ × List ℚ) :=
  let ci := crossing_indices x flags
  let rt0 := ci.map (fun p => dt * (p.1 : ℚ))
  match rt0.head? with
  | none => none
  | some t0 =>
    let rtseries := rt0.map (fun t => t - t0)
    let rtdistribution := List.zipWith (fun a b => a - b) rtseries.tail rtseries
    some (ci, rtseries, rtdistribution)

/-- Python `np.where(fs == f_d)`: the (single component of the) tuple of
indices at which `fs` equals `f_d`. -/
def whereEq (fs : List ℚ) (fd : ℚ) : List ℕ :=
  (List.range fs.length).filter (fun i => fs.getD i 0 = fd)

/-- Python `==` between the tuple returned by `np.where` and an integer:
operands of different types, so the comparison is always `False` (no
exception, simply unequal). -/
def tupleEqNat (_ : List ℕ) (_ : ℕ) : Bool := false

/-- Possible outcomes of `signaltonoise`: the scalar `0` returned by the edge
guards, a numpy array of ratios, or a raised `TypeError`. -/
inductive SnrResult
  | scalar (q : ℚ)
  | arr (l : List ℚ)
  | typeError
  deriving DecidableEq, Repr

/-- Embedding of `signaltonoise(fs, ps, f_d)`.  `idx = np.where(fs==f_d)` is a
tuple; the guards `idx==0` and `idx==len(fs)` compare that tuple with an
integer and are therefore always false; execution then reaches
`ps[idx-1]`, and `idx - 1` (tuple minus integer) raises `TypeError` before any
noise or ratio is computed. -/
def signaltonoise (fs ps : List ℚ) (fd : ℚ) : SnrResult :=
  let idx := whereEq fs fd
  let _signal := idx.map (fun i => ps.getD i 0)
  if tupleEqNat idx 0 then SnrResult.scalar 0
  else if tupleEqNat idx fs.length then SnrResult.scalar 0
  else SnrResult.typeError

/-- Scenario A signal `[0, 0.5, 1.0, 1.0, 0.5, -1.0, -1.0, 0.2, 1.0]`. -/
def sigA : List ℚ := [0, 1/2, 1, 1, 1/2, -1, -1, 1/5, 1]

/-- Discrete Fourier transform computed by numpy `np.fft.fft`: entry `k` is
`∑ j, X[j] · exp(-2πi·k·j/n)`. -/
noncomputable def npFFT (X : List ℝ) : List ℂ :=
  (List.range X.length).map (fun k : ℕ =>
    ∑ j ∈ Finset.range X.length,
      (X.getD j 0 : ℂ) *
        Complex.exp (-(2 * Real.pi * Complex.I * (k : ℂ) * (j : ℂ)) /
          (X.length : ℂ)))

/-- Power spectrum `np.abs(np.fft.fft(X))**2` of `fourier_spectrum`. -/
noncomputable def npPower (X : List ℝ) : List ℝ :=
  (npFFT X).map (fun z => Complex.abs z ^ 2)

/-- Frequency bins of numpy `np.fft.fftfreq(n, d)`:
`[0, 1, ..., (n-1)//2, -(n//2), ..., -1] / (d*n)`, in FFT-native (wrapped)
order. -/
def npFFTfreq (n : ℕ) (d : ℚ) : List ℚ :=
  (List.range n).map (fun k =>
    if k ≤ (n - 1) / 2 then (k : ℚ) / (d * n) else ((k : ℚ) - n) / (d * n))

/-- Sorting permutation of numpy `np.argsort`: the indices `0..n-1` reordered
so that the keys are ascending. -/
def npArgsort (l : List ℚ) : List ℕ :=
  List.insertionSort (fun i j => l.getD i 0 ≤ l.getD j 0) (List.range l.length)

/-- Embedding of `fourier_spectrum(X, sample_freq)`: power `|fft(X)|²`,
frequency bins from `fftfreq`, and both arrays reindexed by the single
sorting permutation `idx = np.argsort(freqs)`, as in `(freqs[idx], ps[idx])`. -/
noncomputable def fourier_spectrum (X : List ℝ) (sample_freq : ℚ) :
    List ℚ × List ℝ :=
  let ps := npPower X
  let freqs := npFFTfreq X.length sample_freq
  let idx := npArgsort freqs
  (idx.map (fun i => freqs.getD i 0), idx.map (fun i => ps.getD i 0))

/-- Invariant of the scan accumulator once every sample index below `n` has
been processed: the sentinel row is still in front, the accepted rows strictly
alternate in label, their indices strictly increase, and every accepted index
is below `n`. -/
def DetInv (n : ℕ) (cs : List (ℕ × Label)) : Prop :=
  ∃ rest, cs = (0, Label.star) :: rest ∧
    rest.Chain' (fun a b => a.2 ≠ b.2) ∧
    rest.Chain' (fun a b => a.1 < b.1) ∧
    ∀ p ∈ rest, p.1 < n

lemma lastLabel_cons {rest : List (ℕ × Label)} {q : ℕ × Label}
    (hq : rest.getLast? = some q) :
    lastLabel ((0, Label.star) :: rest) = q.2 := by
  unfold lastLabel
  rw [List.getLastD_cons, List.getLastD_eq_getLast?, hq]
  rfl

lemma detInv_append {n : ℕ} {rest : List (ℕ × Label)} {lab : Label}
    (halt : rest.Chain' (fun a b => a.2 ≠ b.2))
    (hmono : rest.Chain' (fun a b => a.1 < b.1))
    (hlt : ∀ p ∈ rest, p.1 < n)
    (hlab : ∀ p ∈ rest.getLast?, p.2 ≠ lab) :
    (rest ++ [(n, lab)]).Chain' (fun a b => a.2 ≠ b.2) ∧
    (rest ++ [(n, lab)]).Chain' (fun a b => a.1 < b.1) ∧
    ∀ p ∈ rest ++ [(n, lab)], p.1 < n + 1 := by
  refine ⟨List.chain'_append.mpr ⟨halt, List.chain'_singleton _, ?_⟩,
    List.chain'_append.mpr ⟨hmono, List.chain'_singleton _, ?_⟩, ?_⟩
  · intro p hp y hy
    simp only [List.head?_cons, Option.mem_def, Option.some.injEq] at hy
    subst hy
    exact hlab p hp
  · intro p hp y hy
    simp only [List.head?_cons, Option.mem_def, Option.some.injEq] at hy
    subst hy
    obtain ⟨hne, hpeq⟩ := List.mem_getLast?_eq_getLast hp
    have hmem : p ∈ rest := hpeq ▸ List.getLast_mem hne
    exact hlt p hmem
  · intro p hp
    rcases List.mem_append.mp hp with hl | hr
    · exact Nat.lt_succ_of_lt (hlt p hl)
    · simp only [List.mem_singleton] at hr
      subst hr
      exact Nat.lt_succ_self n

lemma crossStep_inv {x : List ℚ} {flags : ℚ} {cs : List (ℕ × Label)} {i : ℕ}
    (h : DetInv i cs) : DetInv (i + 1) (crossStep x flags cs i) := by
  obtain ⟨rest, rfl, halt, hmono, hlt⟩ := h
  have hlt' : ∀ p ∈ rest, p.1 < i + 1 := fun p hp => Nat.lt_succ_of_lt (hlt p hp)
  have keep : DetInv (i + 1) ((0, Label.star) :: rest) := ⟨rest, rfl, halt, hmono, hlt'⟩
  have app : ∀ lab : Label, (∀ p ∈ rest.getLast?, p.2 ≠ lab) →
      DetInv (i + 1) (((0, Label.star) :: rest) ++ [(i, lab)]) := by
    intro lab hlab
    obtain ⟨h1, h2, h3⟩ := detInv_append halt hmono hlt hlab
    exact ⟨rest ++ [(i, lab)], by rw [List.cons_append], h1, h2, h3⟩
  have hnil : ¬1 < ((0, Label.star) :: rest).length → rest = [] := by
    intro hlen
    simp only [List.length_cons, not_lt] at hlen
    exact List.eq_nil_of_length_eq_zero (Nat.le_zero.mp (Nat.le_of_succ_le_succ hlen))
  have hvac : rest = [] → ∀ lab : Label, ∀ p ∈ rest.getLast?, p.2 ≠ lab := by
    intro hr lab p hp
    subst hr
    simp at hp
  have hfromLast : ∀ {lab lab' : Label},
      lastLabel ((0, Label.star) :: rest) = lab → lab ≠ lab' →
      ∀ p ∈ rest.getLast?, p.2 ≠ lab' := by
    intro lab lab' hlast hne p hp
    rw [Option.mem_def] at hp
    have hpl : lastLabel ((0, Label.star) :: rest) = p.2 := lastLabel_cons hp
    rw [hpl] at hlast
    rw [hlast]
    exact hne
  unfold crossStep
  split_ifs with h0 hposc hlen1 hlast1 hnegc hlen2 hlast2
  · exact keep
  · exact app _ (hfromLast hlast1 (by simp))
  · exact keep
  · exact app _ (hvac (hnil hlen1) _)
  · exact app _ (hfromLast hlast2 (by simp))
  · exact keep
  · exact app _ (hvac (hnil hlen2) _)
  · exact keep

lemma crossScan_inv (x : List ℚ) (flags : ℚ) :
    DetInv x.length (crossScan x flags) := by
  unfold crossScan
  suffices h : ∀ n, DetInv n ((List.range n).foldl (crossStep x flags)
      [(0, Label.star)]) from h _
  intro n
  induction n with
  | zero => exact ⟨[], rfl, List.chain'_nil, List.chain'_nil, by simp⟩
  | succ n ih =>
    rw [List.range_succ, List.foldl_append, List.foldl_cons, List.foldl_nil]
    exact crossStep_inv ih

lemma residence_time_of_nil {x : List ℚ} {flags : ℚ}
    (h : crossing_indices x flags = []) : residence_time x flags = none := by
  unfold residence_time
  rw [h]
  rfl

lemma residence_time_cons (x : List ℚ) (flags : ℚ) (c : ℕ × Label)
    (cs' : List (ℕ × Label)) (hci : crossing_indices x flags = c :: cs') :
    residence_time x flags =
      some (c :: cs',
        ((c :: cs').map (fun p => dt * (p.1 : ℚ))).map
          (fun t => t - dt * (c.1 : ℚ)),
        List.zipWith (fun a b => a - b)
          (((c :: cs').map (fun p => dt * (p.1 : ℚ))).map
            (fun t => t - dt * (c.1 : ℚ))).tail
          (((c :: cs').map (fun p => dt * (p.1 : ℚ))).map
            (fun t => t - dt * (c.1 : ℚ)))) := by
  unfold residence_time
  rw [hci]
  rfl

lemma zipWith_sub_tail_nonneg :
    ∀ ts : List ℚ, ts.Chain' (fun a b => a ≤ b) →
      ∀ r ∈ List.zipWith (fun a b => a - b) ts.tail ts, 0 ≤ r
  | [] => by
    intro _ r hr
    simp at hr
  | [a] => by
    intro _ r hr
    simp at hr
  | a :: b :: ts => by
    intro h r hr
    rw [List.chain'_cons] at h
    simp only [List.tail_cons, List.zipWith_cons_cons, List.mem_cons] at hr
    rcases hr with rfl | hr
    · linarith [h.1]
    · exact zipWith_sub_tail_nonneg (b :: ts) h.2 r (by simpa using hr)

/-- C1: for every input signal and threshold magnitude, the crossing sequence
produced by the detector strictly alternates in side — no two consecutive
accepted events carry the same label, by the construction rule of the scan. -/
theorem detector_alternation (x : List ℚ) (flags : ℚ) :
    (crossing_indices x flags).Chain' (fun a b => a.2 ≠ b.2) := by
  obtain ⟨rest, hcs, halt, -, -⟩ := crossScan_inv x flags
  unfold crossing_indices
  rw [hcs]
  simpa using halt

/-- C2 (code bug): the scan does not skip sample index 0.  When `x[0]` is
nonzero and near a threshold, the comparison `x[0] - x[-1]` wraps around to
the LAST element of the signal, and index 0 can be accepted as a crossing: on
the signal `[1.0, -0.5, 0.5]` with flag 1.0 the detector emits the crossing
`(0, "+")`, using `x[-1] = 0.5` as the predecessor. -/
theorem index_zero_wraparound_crossing :
    crossing_indices [1, -1/2, 1/2] 1 = [(0, Label.plus)] := by
  norm_num [crossing_indices, crossScan, crossStep, prevSample, lastLabel,
    npAbs, tol, List.range_succ]

/-- C3 (counterexample): on the scenario A signal the detector accepts THREE
crossings, not the two the claim expects: the final rise 0.2 → 1.0 reaches
the threshold at index 8 and is accepted as a third, positive crossing. -/
theorem scenarioA_three_crossings : (crossing_indices sigA 1).length = 3 := by
  norm_num [crossing_indices, crossScan, crossStep, prevSample, lastLabel,
    npAbs, tol, sigA, List.range_succ]

/-- C3 (amended): on the scenario A signal (with the code's hard-wired
tolerance 1e-3 and timestep 1e-3; the claimed tolerance 0.05 and timestep 1.0
are not parameters of the code) the analysis yields the three alternating
crossings (2, "+"), (5, "-"), (8, "+") and the two residence-time
distribution entries 3·dt = 0.003 each, the index gaps scaled by dt. -/
theorem scenarioA_result :
    residence_time sigA 1 =
      some ([(2, Label.plus), (5, Label.minus), (8, Label.plus)],
        [0, 3/1000, 6/1000], [3/1000, 3/1000]) := by
  norm_num [residence_time, crossing_indices, crossScan, crossStep, prevSample,
    lastLabel, npAbs, tol, dt, sigA, List.range_succ]

/-- C4 (code bug): with a target frequency equal to the first (minimum) entry
of `frequencies`, the match lands at index 0, yet the call does not return 0:
the edge guards `idx==0` and `idx==len(fs)` compare the tuple returned by
`np.where` with an integer and never fire, so execution reaches `ps[idx-1]`
and raises `TypeError` (tuple minus integer). -/
theorem snr_edge_match_raises :
    whereEq [0, 1, 2] 0 = [0] ∧
      signaltonoise [0, 1, 2] [1, 2, 3] 0 = SnrResult.typeError := by
  constructor
  · norm_num [whereEq, List.range_succ]
  · norm_num [signaltonoise, tupleEqNat]

/-- C5 (counterexample): for the constant signal `[2, 2, 2]`, which never
comes within the tolerance of either threshold, the scan produces the empty
crossing sequence, but the `residence_time` call does not return it as a
valid result — it signals an error (the Python raises `IndexError` at
`rtseries[0]`). -/
theorem no_crossing_signal_still_errors :
    crossing_indices [2, 2, 2] 1 = [] ∧ residence_time [2, 2, 2] 1 = none := by
  have h : crossing_indices [2, 2, 2] 1 = [] := by
    norm_num [crossing_indices, crossScan, crossStep, prevSample, lastLabel,
      npAbs, tol, List.range_succ]
  exact ⟨h, residence_time_of_nil h⟩

/-- C5 (amended): for every signal that never comes within the tolerance of
either threshold, the crossing scan itself accepts nothing and yields the
empty crossing sequence without error, but the enclosing `residence_time`
routine then signals an error on that empty sequence (modelling the Python
`IndexError`) instead of returning it. -/
theorem no_crossing_empty_and_error (x : List ℚ) (flags : ℚ)
    (h : ∀ q ∈ x, tol ≤ npAbs (q - flags) ∧ tol ≤ npAbs (q + flags)) :
    crossing_indices x flags = [] ∧ residence_time x flags = none := by
  have hscan : ∀ n, n ≤ x.length →
      (List.range n).foldl (crossStep x flags) [(0, Label.star)] =
        [(0, Label.star)] := by
    intro n
    induction n with
    | zero => intro _; rfl
    | succ n ih =>
      intro hn
      rw [List.range_succ, List.foldl_append, List.foldl_cons, List.foldl_nil,
        ih (Nat.le_of_succ_le hn)]
      unfold crossStep
      by_cases h0 : x.getD n 0 = 0
      · rw [if_pos h0]
      · have hmem : x.getD n 0 ∈ x := by
          rw [List.getD_eq_getElem _ _ (Nat.lt_of_succ_le hn)]
          exact List.getElem_mem _
        obtain ⟨hp, hm⟩ := h _ hmem
        rw [if_neg h0, if_neg (fun hc => absurd hc.1 (not_lt.mpr hp)),
          if_neg (fun hc => absurd hc.1 (not_lt.mpr hm))]
  have hci : crossing_indices x flags = [] := by
    unfold crossing_indices crossScan
    rw [hscan x.length le_rfl]
    rfl
  exact ⟨hci, residence_time_of_nil hci⟩

/-- C5 (witness): the amended statement applied to the concrete constant
signal `[3, 3]` with flag 1. -/
theorem no_crossing_empty_and_error_witness :
    crossing_indices [3, 3] 1 = [] ∧ residence_time [3, 3] 1 = none :=
  no_crossing_empty_and_error [3, 3] 1 (by
    intro q hq
    simp only [List.mem_cons, List.not_mem_nil, or_false] at hq
    rcases hq with rfl | rfl <;> norm_num [npAbs, tol])

/-- C6: when the crossing sequence is empty, `residence_time` fails fast with
an invalid-input condition (the Python raises `IndexError` at `rtseries[0]`,
modelled as `none`) and does not fabricate a time series or distribution. -/
theorem empty_crossings_rejected (x : List ℚ) (flags : ℚ)
    (h : crossing_indices x flags = []) : residence_time x flags = none :=
  residence_time_of_nil h

/-- C6 (witness): the constant-zero signal of length 10: every sample is
skipped, the crossing sequence is empty, and the extraction errors. -/
theorem empty_crossings_rejected_witness :
    crossing_indices (List.replicate 10 0) 1 = [] ∧
      residence_time (List.replicate 10 0) 1 = none := by
  have h : crossing_indices (List.replicate 10 0) 1 = [] := by
    norm_num [crossing_indices, crossScan, crossStep, List.replicate,
      List.range_succ]
  exact ⟨h, empty_crossings_rejected _ _ h⟩

/-- C7: whenever the analysis succeeds, the residence time series starts at
exactly 0 and its k-th entry is dt·(i_k − i_0), the crossing indices mapped
to absolute time dt·index with the first crossing's time subtracted. -/
theorem residence_series_anchored (x : List ℚ) (flags : ℚ)
    (ci : List (ℕ × Label)) (ts d : List ℚ)
    (h : residence_time x flags = some (ci, ts, d)) :
    ts.getD 0 0 = 0 ∧
      ∀ k, k < ts.length →
        ts.getD k 0 =
          dt * (((ci.getD k (0, Label.star)).1 : ℚ) -
            ((ci.getD 0 (0, Label.star)).1 : ℚ)) := by
  cases hrest : crossing_indices x flags with
  | nil =>
    rw [residence_time_of_nil hrest] at h
    exact absurd h (by simp)
  | cons c cs' =>
    rw [residence_time_cons x flags c cs' hrest] at h
    simp only [Option.some.injEq, Prod.mk.injEq] at h
    obtain ⟨hc, hts, -⟩ := h
    subst hc
    subst hts
    constructor
    · simp
    · intro k hk
      have hk2 : k < (c :: cs').length := by simpa using hk
      have hk0 : 0 < (c :: cs').length := by simp
      rw [List.getD_eq_getElem _ _ hk, List.getD_eq_getElem _ _ hk2,
        List.getD_eq_getElem _ _ hk0]
      simp only [List.getElem_map, List.getElem_cons_zero]
      ring

/-- C7 (witness): on the signal `[1, 0, 0]` the analysis succeeds with one
crossing, and the anchored series facts hold there. -/
theorem residence_series_anchored_witness :
    residence_time [1, 0, 0] 1 = some ([(0, Label.plus)], [0], []) ∧
      (([0] : List ℚ).getD 0 0 = 0 ∧
        ∀ k, k < ([0] : List ℚ).length →
          ([0] : List ℚ).getD k 0 =
            dt * (((([(0, Label.plus)] : List (ℕ × Label)).getD k
              (0, Label.star)).1 : ℚ) -
              ((([(0, Label.plus)] : List (ℕ × Label)).getD 0
                (0, Label.star)).1 : ℚ))) := by
  have h : residence_time [1, 0, 0] 1 = some ([(0, Label.plus)], [0], []) := by
    norm_num [residence_time, crossing_indices, crossScan, crossStep,
      prevSample, lastLabel, npAbs, tol, dt, List.range_succ]
  exact ⟨h, residence_series_anchored _ _ _ _ _ h⟩

/-- C8: for every input signal the emitted crossing indices are
non-decreasing (in fact strictly increasing), and consequently every entry of
the residence-time distribution is non-negative. -/
theorem crossing_monotone_dist_nonneg (x : List ℚ) (flags : ℚ) :
    (crossing_indices x flags).Chain' (fun a b => a.1 ≤ b.1) ∧
      ∀ ci ts d, residence_time x flags = some (ci, ts, d) →
        ∀ r ∈ d, 0 ≤ r := by
  obtain ⟨rest, hcs, -, hmono, -⟩ := crossScan_inv x flags
  have hci : crossing_indices x flags = rest := by
    unfold crossing_indices
    rw [hcs]
    rfl
  have hmono' : (crossing_indices x flags).Chain' (fun a b => a.1 < b.1) := by
    rw [hci]
    exact hmono
  refine ⟨hmono'.imp fun {a b} hab => le_of_lt hab, ?_⟩
  intro ci ts d h r hr
  cases hrest : crossing_indices x flags with
  | nil =>
    rw [residence_time_of_nil hrest] at h
    exact absurd h (by simp)
  | cons c cs' =>
    rw [residence_time_cons x flags c cs' hrest] at h
    simp only [Option.some.injEq, Prod.mk.injEq] at h
    obtain ⟨-, -, hd⟩ := h
    subst hd
    have hm2 : (c :: cs').Chain' (fun a b => a.1 < b.1) := by
      rw [← hrest]
      exact hmono'
    have hdt : (0 : ℚ) ≤ dt := by norm_num [dt]
    have h1 : ((c :: cs').map (fun p => dt * (p.1 : ℚ))).Chain'
        (fun a b => a ≤ b) :=
      List.chain'_map_of_chain' _
        (fun a b hab =>
          mul_le_mul_of_nonneg_left (by exact_mod_cast le_of_lt hab) hdt) hm2
    have hchain : (((c :: cs').map (fun p => dt * (p.1 : ℚ))).map
        (fun t => t - dt * (c.1 : ℚ))).Chain' (fun a b => a ≤ b) :=
      List.chain'_map_of_chain' _ (fun a b hab => by linarith) h1
    exact zipWith_sub_tail_nonneg _ hchain r hr

/-- C8 (witness): on the scenario A signal the analysis succeeds and both
distribution entries are non-negative. -/
theorem crossing_monotone_dist_nonneg_witness :
    residence_time sigA 1 =
      some ([(2, Label.plus), (5, Label.minus), (8, Label.plus)],
        [0, 3/1000, 6/1000], [3/1000, 3/1000]) ∧
      ∀ r ∈ ([3/1000, 3/1000] : List ℚ), 0 ≤ r := by
  have h : residence_time sigA 1 =
      some ([(2, Label.plus), (5, Label.minus), (8, Label.plus)],
        [0, 3/1000, 6/1000], [3/1000, 3/1000]) := by
    norm_num [residence_time, crossing_indices, crossScan, crossStep,
      prevSample, lastLabel, npAbs, tol, dt, sigA, List.range_succ]
  exact ⟨h, (crossing_monotone_dist_nonneg sigA 1).2 _ _ _ h⟩

/-- C10 (counterexample): with a target frequency matching no entry of the
frequency array, `signaltonoise` does not return an empty result: the call
raises `TypeError` at `ps[idx-1]` (the `np.where` tuple does not support
subtraction). -/
theorem snr_no_match_raises :
    whereEq [1, 2] 3 = [] ∧
      signaltonoise [1, 2] [4, 5] 3 = SnrResult.typeError := by
  constructor
  · norm_num [whereEq, List.range_succ]
  · norm_num [signaltonoise, tupleEqNat]

/-- C10 (amended): on every lookup miss `signaltonoise` raises `TypeError`
(tuple-minus-integer in the neighbor lookup); it neither returns an empty
result nor signals an explicit not-found condition. -/
theorem snr_lookup_miss_raises (fs ps : List ℚ) (fd : ℚ)
    (_h : whereEq fs fd = []) :
    signaltonoise fs ps fd = SnrResult.typeError := by
  simp [signaltonoise, tupleEqNat]

/-- C10 (witness): the amended statement at a concrete miss. -/
theorem snr_lookup_miss_raises_witness :
    whereEq [5, 6] 0 = [] ∧
      signaltonoise [5, 6] [7, 8] 0 = SnrResult.typeError := by
  have h : whereEq [5, 6] 0 = [] := by
    norm_num [whereEq, List.range_succ]
  exact ⟨h, snr_lookup_miss_raises _ _ _ h⟩

lemma npArgsort_perm (l : List ℚ) :
    (npArgsort l).Perm (List.range l.length) :=
  List.perm_insertionSort _ _

lemma npArgsort_length (l : List ℚ) : (npArgsort l).length = l.length := by
  rw [(npArgsort_perm l).length_eq, List.length_range]

lemma npArgsort_sorted (l : List ℚ) :
    List.Sorted (fun i j => l.getD i 0 ≤ l.getD j 0) (npArgsort l) := by
  haveI : IsTotal ℕ (fun i j => l.getD i 0 ≤ l.getD j 0) :=
    ⟨fun a b => le_total _ _⟩
  haveI : IsTrans ℕ (fun i j => l.getD i 0 ≤ l.getD j 0) :=
    ⟨fun a b c hab hbc => le_trans hab hbc⟩
  exact List.sorted_insertionSort _ _

lemma zip_eq_map_range {α β : Type*} (d₁ : α) (d₂ : β) (l₁ : List α)
    (l₂ : List β) (h : l₁.length = l₂.length) :
    l₁.zip l₂ =
      (List.range l₁.length).map (fun i => (l₁.getD i d₁, l₂.getD i d₂)) := by
  apply List.ext_getElem
  · simp [List.length_zip, h]
  · intro i h1 h2
    have hi1 : i < l₁.length := by simpa using h2
    have hi2 : i < l₂.length := h ▸ hi1
    simp only [List.getElem_zip, List.getElem_map, List.getElem_range]
    rw [List.getD_eq_getElem _ _ hi1, List.getD_eq_getElem _ _ hi2]

/-- C9: `fourier_spectrum` returns a frequency array and a power array of
identical length equal to the signal length, the frequency array is sorted
ascending, and the same permutation is applied to both arrays: the zipped
output is a permutation of the FFT-native (frequency, power) pairs. -/
theorem spectrum_sorted_paired (X : List ℝ) (sample_freq : ℚ) :
    (fourier_spectrum X sample_freq).1.length = X.length ∧
      (fourier_spectrum X sample_freq).2.length = X.length ∧
      List.Sorted (fun a b => a ≤ b) (fourier_spectrum X sample_freq).1 ∧
      ((fourier_spectrum X sample_freq).1.zip
          (fourier_spectrum X sample_freq).2).Perm
        ((npFFTfreq X.length sample_freq).zip (npPower X)) := by
  have hfst : (fourier_spectrum X sample_freq).1 =
      (npArgsort (npFFTfreq X.length sample_freq)).map
        (fun i => (npFFTfreq X.length sample_freq).getD i 0) := rfl
  have hsnd : (fourier_spectrum X sample_freq).2 =
      (npArgsort (npFFTfreq X.length sample_freq)).map
        (fun i => (npPower X).getD i 0) := rfl
  have hlf : (npFFTfreq X.length sample_freq).length = X.length := by
    simp only [npFFTfreq, List.length_map, List.length_range]
  have hlp : (npPower X).length = X.length := by
    simp only [npPower, npFFT, List.length_map, List.length_range]
  have hlidx : (npArgsort (npFFTfreq X.length sample_freq)).length = X.length := by
    rw [npArgsort_length, hlf]
  refine ⟨?_, ?_, ?_, ?_⟩
  · rw [hfst, List.length_map, hlidx]
  · rw [hsnd, List.length_map, hlidx]
  · rw [hfst]
    exact List.Pairwise.map _ (fun a b hab => hab)
      (npArgsort_sorted (npFFTfreq X.length sample_freq))
  · rw [hfst, hsnd, List.zip_map']
    have hperm := (npArgsort_perm (npFFTfreq X.length sample_freq)).map
      (fun i => ((npFFTfreq X.length sample_freq).getD i 0,
        (npPower X).getD i 0))
    refine hperm.trans ?_
    rw [← zip_eq_map_range 0 0 (npFFTfreq X.length sample_freq) (npPower X)
      (by rw [hlf, hlp])]
